import Mathlib

/-!
Verification development for the `json_snake_case` generator
(`src/cmd/snake/main.go`).  The Go source is shallowly embedded below:
strings are modelled as `List Char` (Go runes; faithful on the ASCII
domain, where `unicode.IsUpper` / `strings.ToLower` agree with
`Char.isUpper` / `Char.toLower`), Go maps are modelled as association
lists together with an explicit enumeration order where iteration order
matters, and Go slice expressions that can panic are modelled with an
`Option`-returning extraction.
-/

namespace JsonSnakeCase

/-- Model of the character class accepted by `tagRegex`
(`[0-9a-zA-Z,_=&\(\)]`). -/
def isTagClassChar (c : Char) : Bool :=
  c.isAlphanum || c == ',' || c == '_' || c == '=' || c == '&' || c == '(' || c == ')'

/-- The fixed initialism set `commonInitialisms` from the source,
as a list of rune strings. -/
def commonInitialisms : List (List Char) :=
  ["API".data, "ASCII".data, "CPU".data, "CSS".data, "DNS".data,
   "EOF".data, "GUID".data, "HTML".data, "HTTP".data, "HTTPS".data,
   "ID".data, "IP".data, "JSON".data, "LHS".data, "QPS".data,
   "RAM".data, "RHS".data, "RPC".data, "SLA".data, "SMTP".data,
   "SQL".data, "SSH".data, "TCP".data, "TLS".data, "TTL".data,
   "UDP".data, "UID".data, "UI".data, "UUID".data, "URI".data,
   "URL".data, "UTF8".data, "VM".data, "XML".data, "XSRF".data,
   "XSS".data]

/-- Model of `startsWithInitialism`: scan candidate prefix lengths 1..5,
keeping the last (hence longest) prefix found in `commonInitialisms`;
the guard `len(s) > i-1` of the source makes `s.take i` the exact
Go slice `s[:i]`. -/
def startsWithInitialism (s : List Char) : List Char :=
  (List.range' 1 5).foldl
    (fun ini i =>
      if decide (i - 1 < s.length) && commonInitialisms.contains (s.take i) then
        s.take i
      else ini)
    []

/-- Model of the Go slice expression `s[a:b]` on rune strings: `none`
exactly when Go would panic (`a > b` or `b > len(s)`). -/
def listExtract (s : List Char) (a b : Nat) : Option (List Char) :=
  if a ≤ b ∧ b ≤ s.length then some ((s.take b).drop a) else none

/-- Loop exit of the `CamelToSnake` scan (lines 280-282): the trailing
segment `s[lastPos:]` becomes a final word when non-empty.  Slicing
uses `listExtract`, so a Go panic would surface as `none`. -/
def camelExit (s : List Char) (lastPos : Nat) (words : List (List Char)) :
    Option (List (List Char)) :=
  match listExtract s lastPos s.length with
  | none => none
  | some tail => some (if tail ≠ [] then words ++ [tail] else words)

/-- The scanning loop body of `CamelToSnake`.  `fuel` bounds the number
of loop iterations (each iteration strictly increases `i`, so `s.length`
fuel always suffices, as proved below); exhausted fuel yields `none`,
and is never reached from `CamelToSnake`. -/
def camelWords (s : List Char) : Nat → Nat → Nat → List (List Char) →
    Option (List (List Char))
  | 0, i, lastPos, words =>
    if i < s.length then none else camelExit s lastPos words
  | fuel' + 1, i, lastPos, words =>
    if h : i < s.length then
      if 0 < i ∧ (s.get ⟨i, h⟩).isUpper then
        match listExtract s lastPos s.length with
        | none => none
        | some tail =>
          let ini := startsWithInitialism tail
          if ini ≠ [] then
            camelWords s fuel' (i + ini.length) (i + ini.length - 1) (words ++ [ini])
          else
            match listExtract s lastPos i with
            | none => none
            | some w => camelWords s fuel' (i + 1) i (words ++ [w])
      else
        camelWords s fuel' (i + 1) lastPos words
    else camelExit s lastPos words

/-- The word-joining loop of `CamelToSnake`: lowercase every word and
join with `_`. -/
def joinWords : List (List Char) → List Char
  | [] => []
  | w :: rest => w.map Char.toLower ++ (rest.map (fun w2 => '_' :: w2.map Char.toLower)).flatten

/-- Model of `CamelToSnake`: run the scanning loop from `i = 0`,
`lastPos = 0` with empty `words`, then join.  `none` models a Go panic
(never reached, as proved below). -/
def CamelToSnake (s : List Char) : Option (List Char) :=
  (camelWords s s.length 0 0 []).map joinWords

/-- Total wrapper used by the emission model (justified by the
totality theorem below: the `none` branch is unreachable). -/
def camelLabel (s : String) : List Char :=
  (CamelToSnake s.data).getD []

/-- A single serialized tag token: `key` when the value is empty,
`key:"value"` otherwise (the two branches of the `tagString` loop
body). -/
def tagToken (k v : List Char) : List Char :=
  if v = [] then k else k ++ ':' :: '"' :: (v ++ ['"'])

/-- Removal of one leading space, modelling `strings.TrimPrefix(output, " ")`. -/
def trimLeadSpace : List Char → List Char
  | ' ' :: rest => rest
  | l => l

/-- Model of `tagString`: the Go loop appends `" " + token` for each
entry the map range yields, then trims one leading space.  The argument
list is the map's entries in the enumeration order used by `range`
(which Go does not fix — see the order-dependence theorem below). -/
def tagString (tags : List (List Char × List Char)) : List Char :=
  trimLeadSpace (tags.foldl (fun out kv => out ++ ' ' :: tagToken kv.1 kv.2) [])

/-- Quoted-value tail of a `tagRegex` match: a greedy run of class
characters that must be closed by `"`. -/
def parseQuoted (rest : List Char) : Option (List Char × List Char) :=
  match rest.dropWhile isTagClassChar with
  | '"' :: rest2 => some (rest.takeWhile isTagClassChar, rest2)
  | _ => none

/-- The optional value group `(:( )?"([class]*)")?` of `tagRegex`:
a colon, an optional single space, then a quoted class-character run. -/
def tryTagValue : List Char → Option (List Char × List Char)
  | ':' :: ' ' :: '"' :: rest => parseQuoted rest
  | ':' :: '"' :: rest => parseQuoted rest
  | _ => none

theorem length_dropWhile_le (p : Char → Bool) :
    ∀ l : List Char, (l.dropWhile p).length ≤ l.length := by
  intro l
  induction l with
  | nil => simp [List.dropWhile]
  | cons c rest ih =>
    simp only [List.dropWhile]
    cases p c <;> simp <;> omega

theorem parseQuoted_length {rest v rest2 : List Char}
    (h : parseQuoted rest = some (v, rest2)) : rest2.length < rest.length := by
  unfold parseQuoted at h
  split at h
  · next rest2' hdrop =>
    simp only [Option.some.injEq, Prod.mk.injEq] at h
    obtain ⟨-, h2⟩ := h
    subst h2
    have hlen := length_dropWhile_le isTagClassChar rest
    rw [hdrop] at hlen
    simp only [List.length_cons] at hlen
    omega
  · exact absurd h (by simp)

theorem tryTagValue_length {xs v rest2 : List Char}
    (h : tryTagValue xs = some (v, rest2)) : rest2.length < xs.length := by
  unfold tryTagValue at h
  split at h
  · next rest =>
    have := parseQuoted_length h
    simp only [List.length_cons]
    omega
  · next rest =>
    have := parseQuoted_length h
    simp only [List.length_cons]
    omega
  · exact absurd h (by simp)

/-- Model of `tagRegex.FindAllStringSubmatch`: scan left to right; a
match starts at any class character, its key is the maximal class run,
and the optional value group follows when it fits.  On a bare key the
captured value group is the empty string. -/
def tagRegexMatches (xs : List Char) : List (List Char × List Char) :=
  match xs with
  | [] => []
  | c :: rest =>
    if isTagClassChar c then
      match htv : tryTagValue (rest.dropWhile isTagClassChar) with
      | some (v, rest2) =>
        (c :: rest.takeWhile isTagClassChar, v) :: tagRegexMatches rest2
      | none =>
        (c :: rest.takeWhile isTagClassChar, []) :: tagRegexMatches (rest.dropWhile isTagClassChar)
    else
      tagRegexMatches rest
termination_by xs.length
decreasing_by
  · have h1 := tryTagValue_length htv
    have h2 := length_dropWhile_le isTagClassChar rest
    simp only [List.length_cons]; omega
  · have h2 := length_dropWhile_le isTagClassChar rest
    simp only [List.length_cons]; omega
  · simp only [List.length_cons]; omega

/-- Association-list lookup, modelling Go map indexing `tags[k]`
(`none` is Go's "comma-ok" false). -/
def aLookup (k : List Char) : List (List Char × List Char) → Option (List Char)
  | [] => none
  | (k', v) :: rest => if k' = k then some v else aLookup k rest

/-- Association-list update, modelling Go map assignment `tags[k] = v`:
overwrite the key in place, or add it when absent. -/
def mapInsert (tags : List (List Char × List Char)) (k v : List Char) :
    List (List Char × List Char) :=
  match tags with
  | [] => [(k, v)]
  | (k', v') :: rest => if k' = k then (k, v) :: rest else (k', v') :: mapInsert rest k v

/-- Model of `tagParser`: fold the regex matches into a map, last
occurrence of a key winning (`tags[v[1]] = v[4]`).  The association
list records the entries; the map itself carries no order. -/
def tagParser (xs : List Char) : List (List Char × List Char) :=
  (tagRegexMatches xs).foldl (fun m kv => mapInsert m kv.1 kv.2) []

/-- Test for `strings.HasPrefix(v, ",")`. -/
def hasCommaPrefix : List Char → Bool
  | ',' :: _ => true
  | _ => false

/-- The json-tag synthesis step of `main` (lines 130-137): insert the
derived label when no `json` entry exists, prepend it when the existing
value is separator-led, and otherwise leave the map untouched. -/
def synthesizeJsonTag (label : List Char) (tags : List (List Char × List Char)) :
    List (List Char × List Char) :=
  match aLookup "json".data tags with
  | some v => if hasCommaPrefix v then mapInsert tags "json".data (label ++ v) else tags
  | none => mapInsert tags "json".data label

/-- One field as the generator sees it: the identifier, the type's
spelling when the AST type is a simple `*ast.Ident` (`none` otherwise),
and the raw tag string without its backquotes (`none` when the field
has no tag). -/
structure FieldDecl where
  name : String
  typeIdent : Option String
  rawTag : Option String
  deriving DecidableEq

/-- One type spec as the generator sees it: the declared name and its
field list when the underlying type is a struct (`none` otherwise). -/
structure TypeSpecDecl where
  name : String
  structFields : Option (List FieldDecl)
  deriving DecidableEq

/-- Model of the Go helper `contains`. -/
def contains (list : List String) (key : String) : Bool :=
  match list with
  | [] => false
  | v :: rest => if v = key then true else contains rest key

/-- One mirror-struct field line (lines 115-141): fields whose type is
not a simple identifier are skipped by the `continue`, the others are
printed as `name type \x60tag\x60` with the synthesized tag. -/
def emitField (f : FieldDecl) : String :=
  match f.typeIdent with
  | none => ""
  | some t =>
    let tagValue := (f.rawTag.getD "").data
    let tags := synthesizeJsonTag (camelLabel f.name) (tagParser tagValue)
    f.name ++ " " ++ t ++ " `" ++ String.mk (tagString tags) ++ "`\n"

/-- The emitted mirror struct declaration (lines 113-142). -/
def emitMirrorType (name : String) (fields : List FieldDecl) : String :=
  "type " ++ name ++ "JSON struct \x7b" ++ "\n" ++ String.join (fields.map emitField) ++ "\x7d\n"

/-- The emitted `MarshalJSON` method (lines 146-149). -/
def emitMarshalMethod (name : String) : String :=
  "func (m " ++ name ++ ") MarshalJSON() ([]byte, error) \x7b\n"
    ++ "\tj := New" ++ name ++ "JSON(&m)\n"
    ++ "\treturn json.Marshal(j)\n" ++ "\x7d\n"

/-- The `fieldNames` slice of `main` (lines 115-118): every field's
name is recorded, before the simple-identifier check. -/
def fieldNamesOf (fields : List FieldDecl) : List String :=
  fields.map (fun f => f.name)

/-- The emitted constructor (lines 153-159): it copies every name in
`fieldNames`, including names the mirror struct omitted. -/
def emitConstructor (name : String) (fields : List FieldDecl) : String :=
  "func New" ++ name ++ "JSON(m *" ++ name ++ ") *" ++ name ++ "JSON \x7b\n"
    ++ "\tv := &" ++ name ++ "JSON\x7b\x7d\n"
    ++ String.join ((fieldNamesOf fields).map (fun fn => "\tv." ++ fn ++ " = m." ++ fn ++ "\n"))
    ++ "return v\n" ++ "\x7d\n"

/-- Output of the generation loop for one type spec (lines 100-162):
nothing unless the name was requested and the spec is a struct. -/
def emitTypeSpec (types : List String) (d : TypeSpecDecl) : String :=
  if contains types d.name then
    match d.structFields with
    | some fields =>
      emitMirrorType d.name fields ++ "\n" ++ emitMarshalMethod d.name ++ "\n"
        ++ emitConstructor d.name fields ++ "\n"
    | none => ""
  else ""

/-- Concatenated generation output over all scanned type specs, in
declaration order (successive appends to the generator buffer). -/
def generateBody (types : List String) : List TypeSpecDecl → String
  | [] => ""
  | d :: rest => emitTypeSpec types d ++ generateBody types rest

/-- Loop invariant of the `CamelToSnake` scan: before the first
boundary the counter and word start are both zero; afterwards the word
start lies before the counter and inside the string, and no character
strictly between them is uppercase (such a character would have moved
the word start when it was examined). -/
def CamelInv (s : List Char) (i lastPos : Nat) : Prop :=
  (i = 0 ∧ lastPos = 0) ∨
    (lastPos + 1 ≤ i ∧ lastPos ≤ s.length ∧
      ∀ (j : Nat) (hj : j < s.length), lastPos < j → j < i →
        (s.get ⟨j, hj⟩).isUpper = false)

/-- Model of `Generator.format` (lines 191-201): on a formatter
failure the raw buffer is returned together with the two warning
diagnostics; on success the canonicalized bytes are returned.  The
formatter itself is external (`go/format`), so its outcome is the
argument. -/
def generatorFormat (buf : List Char) (fmtResult : Except (List Char) (List Char)) :
    List Char × List (List Char) :=
  match fmtResult with
  | Except.ok src => (src, [])
  | Except.error e =>
    (buf,
     ["warning: internal error: invalid Go generated: ".data ++ e,
      "warning: compile the package to analyze the error".data])

theorem startsWithInitialism_spec (s : List Char) :
    startsWithInitialism s = [] ∨
      (startsWithInitialism s ∈ commonInitialisms ∧ startsWithInitialism s <+: s) := by
  unfold startsWithInitialism
  have key : ∀ (l : List Nat) (acc : List Char),
      (acc = [] ∨ (acc ∈ commonInitialisms ∧ acc <+: s)) →
      (l.foldl
          (fun ini i =>
            if decide (i - 1 < s.length) && commonInitialisms.contains (s.take i) then
              s.take i
            else ini) acc = [] ∨
        (l.foldl
            (fun ini i =>
              if decide (i - 1 < s.length) && commonInitialisms.contains (s.take i) then
                s.take i
              else ini) acc ∈ commonInitialisms ∧
          l.foldl
              (fun ini i =>
                if decide (i - 1 < s.length) && commonInitialisms.contains (s.take i) then
                  s.take i
                else ini) acc <+: s)) := by
    intro l
    induction l with
    | nil => intro acc h; exact h
    | cons x xs ih =>
      intro acc h
      simp only [List.foldl_cons]
      apply ih
      by_cases hc : (decide (x - 1 < s.length) && commonInitialisms.contains (s.take x)) = true
      · rw [if_pos hc]
        right
        refine ⟨?_, List.take_prefix x s⟩
        have hmem := (Bool.and_eq_true _ _).mp hc |>.2
        simpa using hmem
      · rw [if_neg hc]
        exact h
  exact key _ [] (Or.inl rfl)

theorem commonInitialisms_two_le_and_snd_upper :
    ∀ w ∈ commonInitialisms,
      2 ≤ w.length ∧ Option.all Char.isUpper (w.get? 1) = true := by decide

theorem camelExit_isSome (s : List Char) (lastPos : Nat) (words : List (List Char))
    (hlp : lastPos ≤ s.length) : (camelExit s lastPos words).isSome = true := by
  unfold camelExit listExtract
  rw [if_pos ⟨hlp, le_refl _⟩]
  simp

theorem camelWords_isSome (s : List Char) :
    ∀ (fuel i lastPos : Nat) (words : List (List Char)),
      s.length ≤ i + fuel → CamelInv s i lastPos →
      (camelWords s fuel i lastPos words).isSome = true := by
  intro fuel
  induction fuel with
  | zero =>
    intro i lastPos words hfuel hinv
    have hni : ¬ i < s.length := by omega
    have hlp : lastPos ≤ s.length := by
      rcases hinv with ⟨_, h⟩ | ⟨_, h, _⟩ <;> omega
    rw [camelWords, if_neg hni]
    exact camelExit_isSome s lastPos words hlp
  | succ fuel' ih =>
    intro i lastPos words hfuel hinv
    by_cases hi : i < s.length
    · rw [camelWords, dif_pos hi]
      by_cases hup : 0 < i ∧ ((s.get ⟨i, hi⟩).isUpper = true)
      · have hcase : lastPos + 1 ≤ i ∧ lastPos ≤ s.length ∧
            ∀ (j : Nat) (hj : j < s.length), lastPos < j → j < i →
              (s.get ⟨j, hj⟩).isUpper = false := by
          rcases hinv with ⟨hi0, _⟩ | h2
          · omega
          · exact h2
        obtain ⟨hlpi, hlps, hmid⟩ := hcase
        have hext : listExtract s lastPos s.length = some (s.drop lastPos) := by
          unfold listExtract
          rw [if_pos ⟨hlps, le_refl _⟩, List.take_length]
        rw [if_pos hup]
        split
        · next heq =>
          rw [hext] at heq
          exact absurd heq (by simp)
        · next tail heq =>
          rw [hext] at heq
          injection heq with htail
          subst htail
          dsimp only
          by_cases hini : startsWithInitialism (s.drop lastPos) = []
          · -- no initialism: ordinary split at i
            rw [if_neg (by simp [hini])]
            split
            · next heq2 =>
              unfold listExtract at heq2
              rw [if_pos ⟨by omega, le_of_lt hi⟩] at heq2
              exact absurd heq2 (by simp)
            · next w heq2 =>
              apply ih
              · omega
              · right
                refine ⟨by omega, by omega, ?_⟩
                intro j hj h1 h2
                omega
          · -- an initialism matched at the word start
            rcases startsWithInitialism_spec (s.drop lastPos) with hnil | ⟨hmem, hpre⟩
            · exact absurd hnil hini
            obtain ⟨hlen2, hupr⟩ := commonInitialisms_two_le_and_snd_upper _ hmem
            have hlenle : (startsWithInitialism (s.drop lastPos)).length ≤ s.length - lastPos := by
              have := hpre.length_le
              simpa using this
            have hieq : i = lastPos + 1 := by
              by_contra hne'
              have hjlt : lastPos + 1 < s.length := by omega
              have hmidj := hmid (lastPos + 1) hjlt (by omega) (by omega)
              -- the second character of the initialism is uppercase and equals s[lastPos+1]
              obtain ⟨t, hts⟩ := hpre
              have hget : (startsWithInitialism (s.drop lastPos)).get? 1 =
                  s.get? (lastPos + 1) := by
                have h1 : (startsWithInitialism (s.drop lastPos) ++ t).get? 1 =
                    (startsWithInitialism (s.drop lastPos)).get? 1 :=
                  List.get?_append (by omega)
                rw [hts] at h1
                rw [← h1, List.get?_drop]
              rcases hg : s.get? (lastPos + 1) with _ | c1
              · rw [List.get?_eq_none] at hg; omega
              · have hc1 : c1 = s.get ⟨lastPos + 1, hjlt⟩ := by
                  have h2 := List.get?_eq_get hjlt
                  rw [hg] at h2
                  exact ((Option.some.injEq _ _).mp h2.symm).symm
                rw [hget, hg] at hupr
                simp only [Option.all] at hupr
                rw [hc1, hmidj] at hupr
                exact absurd hupr (by simp)
            rw [if_pos hini]
            apply ih
            · omega
            · right
              refine ⟨by omega, by omega, ?_⟩
              intro j hj h1 h2
              omega
      · rw [if_neg hup]
        apply ih
        · omega
        · rcases hinv with ⟨hi0, hlp0⟩ | ⟨h1, h2, h3⟩
          · right
            refine ⟨by omega, by omega, ?_⟩
            intro j hj hj1 hj2
            omega
          · right
            refine ⟨by omega, h2, ?_⟩
            intro j hj hj1 hj2
            by_cases hji : j = i
            · subst hji
              have h0i : 0 < j := by omega
              have : ¬ (s.get ⟨j, hi⟩).isUpper = true := fun hu => hup ⟨h0i, hu⟩
              simpa using this
            · exact h3 j hj hj1 (by omega)
    · have hlp : lastPos ≤ s.length := by
        rcases hinv with ⟨_, h⟩ | ⟨_, h, _⟩ <;> omega
      rw [camelWords, dif_neg hi]
      exact camelExit_isSome s lastPos words hlp

/-- C7: `CamelToSnake` is total — for every input string (runs of any
characters, the empty string included) the scan reaches the exit
without any out-of-range slice, so a result string is always produced
and the `none` (panic) outcome is unreachable. -/
theorem CamelToSnake_total : ∀ s : List Char, (CamelToSnake s).isSome = true := by
  intro s
  unfold CamelToSnake
  have h := camelWords_isSome s s.length 0 0 [] (by omega) (Or.inl ⟨rfl, rfl⟩)
  cases hc : camelWords s s.length 0 0 [] with
  | none => rw [hc] at h; exact absurd h (by simp)
  | some w => rfl

theorem camelWords_no_upper (s : List Char)
    (hnoup : ∀ (j : Nat) (hj : j < s.length), 0 < j → (s.get ⟨j, hj⟩).isUpper = false) :
    ∀ (fuel i : Nat) (words : List (List Char)), s.length ≤ i + fuel →
      camelWords s fuel i 0 words = some (if s ≠ [] then words ++ [s] else words) := by
  have hexit : ∀ words : List (List Char),
      camelExit s 0 words = some (if s ≠ [] then words ++ [s] else words) := by
    intro words
    unfold camelExit listExtract
    rw [if_pos ⟨Nat.zero_le _, le_refl _⟩, List.take_length, List.drop_zero]
  intro fuel
  induction fuel with
  | zero =>
    intro i words hfuel
    have hni : ¬ i < s.length := by omega
    rw [camelWords, if_neg hni]
    exact hexit words
  | succ fuel' ih =>
    intro i words hfuel
    by_cases hi : i < s.length
    · rw [camelWords, dif_pos hi]
      have hnup : ¬ (0 < i ∧ ((s.get ⟨i, hi⟩).isUpper = true)) := by
        rintro ⟨h0, hu⟩
        rw [hnoup i hi h0] at hu
        exact absurd hu (by simp)
      rw [if_neg hnup]
      exact ih (i + 1) words (by omega)
    · rw [camelWords, dif_neg hi]
      exact hexit words

/-- C10: on an ASCII string with no uppercase character after position
0, the scan never splits, so `CamelToSnake` returns the whole input
lowercased as a single word, inserting no underscore. -/
theorem CamelToSnake_no_upper_single_word (s : List Char)
    (hascii : ∀ c ∈ s, c.toNat < 128)
    (hnoup : ∀ (j : Nat) (hj : j < s.length), 0 < j → (s.get ⟨j, hj⟩).isUpper = false) :
    CamelToSnake s = some (s.map Char.toLower) := by
  unfold CamelToSnake
  rw [camelWords_no_upper s hnoup s.length 0 [] (by omega)]
  by_cases hs : s = []
  · subst hs
    simp [joinWords]
  · rw [if_pos hs]
    simp [joinWords]

/-- Witness for C10 at the concrete input `"abc_1x"`. -/
theorem CamelToSnake_no_upper_single_word_witness :
    (∀ c ∈ "abc_1x".data, c.toNat < 128)
    ∧ (∀ (j : Nat) (hj : j < "abc_1x".data.length), 0 < j →
        ("abc_1x".data.get ⟨j, hj⟩).isUpper = false)
    ∧ CamelToSnake "abc_1x".data = some ("abc_1x".data.map Char.toLower) :=
  ⟨by decide, by decide,
   CamelToSnake_no_upper_single_word "abc_1x".data (by decide) (by decide)⟩

/-- C6: the three spec examples that the code does satisfy:
`UserID ↦ user_id`, `ID ↦ id`, `APIKeyID ↦ api_key_id`. -/
theorem CamelToSnake_examples :
    CamelToSnake "UserID".data = some "user_id".data
    ∧ CamelToSnake "ID".data = some "id".data
    ∧ CamelToSnake "APIKeyID".data = some "api_key_id".data :=
  ⟨by decide, by decide, by decide⟩

/-- C3 (counterexample): `CamelToSnake "HTTPServer"` is *not*
`"http_server"` — the longest-initialism rule makes `HTTPS` win. -/
theorem CamelToSnake_HTTPServer_ne :
    CamelToSnake "HTTPServer".data ≠ some "http_server".data := by decide

/-- C3 (amended): on `"HTTPServer"` the longest matching initialism is
`"HTTPS"`, which consumes the `S` of `Server`, so the output is
`"https_erver"`. -/
theorem CamelToSnake_HTTPServer :
    CamelToSnake "HTTPServer".data = some "https_erver".data
    ∧ startsWithInitialism "HTTPServer".data = "HTTPS".data :=
  ⟨by decide, by decide⟩

theorem aLookup_mapInsert_self (k v : List Char) :
    ∀ tags, aLookup k (mapInsert tags k v) = some v := by
  intro tags
  induction tags with
  | nil => simp [mapInsert, aLookup]
  | cons kv rest ih =>
    obtain ⟨k', v'⟩ := kv
    by_cases h : k' = k
    · subst h
      simp [mapInsert, aLookup]
    · simp [mapInsert, aLookup, h, ih]

/-- C4: the json-entry policy of the synthesis step.  When no `json`
entry exists one is inserted whose value is the derived label; when the
existing value is comma-led the label is prepended to it; any other
non-empty value leaves the whole map completely unchanged. -/
theorem synthesizeJsonTag_policy (tags : List (List Char × List Char)) (label : List Char) :
    (aLookup "json".data tags = none →
      aLookup "json".data (synthesizeJsonTag label tags) = some label)
    ∧ (∀ v, aLookup "json".data tags = some v → hasCommaPrefix v = true →
      aLookup "json".data (synthesizeJsonTag label tags) = some (label ++ v))
    ∧ (∀ v, aLookup "json".data tags = some v → v ≠ [] → hasCommaPrefix v = false →
      synthesizeJsonTag label tags = tags) := by
  refine ⟨?_, ?_, ?_⟩
  · intro h
    unfold synthesizeJsonTag
    rw [h]
    exact aLookup_mapInsert_self _ _ _
  · intro v hv hc
    unfold synthesizeJsonTag
    rw [hv]
    simp only [hc, if_true]
    exact aLookup_mapInsert_self _ _ _
  · intro v hv hne hc
    unfold synthesizeJsonTag
    rw [hv]
    simp [hc]

/-- Witness for C4: the three policy cases at concrete inputs (no
entry; `,omitempty`; explicit `custom`). -/
theorem synthesizeJsonTag_policy_witness :
    aLookup "json".data ([] : List (List Char × List Char)) = none
    ∧ aLookup "json".data (synthesizeJsonTag "user_id".data []) = some "user_id".data
    ∧ aLookup "json".data
        (synthesizeJsonTag "user_id".data [("json".data, ",omitempty".data)])
        = some ("user_id".data ++ ",omitempty".data)
    ∧ synthesizeJsonTag "user_id".data [("json".data, "custom".data)]
        = [("json".data, "custom".data)] :=
  ⟨rfl,
   (synthesizeJsonTag_policy [] "user_id".data).1 rfl,
   (synthesizeJsonTag_policy [("json".data, ",omitempty".data)] "user_id".data).2.1
     ",omitempty".data rfl rfl,
   (synthesizeJsonTag_policy [("json".data, "custom".data)] "user_id".data).2.2
     "custom".data rfl (by decide) rfl⟩

/-- C8: when the external formatter fails, `Generator.format` returns
the raw buffer unchanged together with two warning diagnostics, and
generation completes normally (a value is returned, not an error). -/
theorem generatorFormat_fallback (buf e : List Char) :
    generatorFormat buf (Except.error e)
      = (buf, ["warning: internal error: invalid Go generated: ".data ++ e,
               "warning: compile the package to analyze the error".data])
    ∧ (generatorFormat buf (Except.error e)).1 = buf
    ∧ (generatorFormat buf (Except.error e)).2 ≠ [] :=
  ⟨rfl, rfl, by simp [generatorFormat]⟩

/-- C1: `tagString` output depends on the enumeration order of the tag
map — the same two-entry map serialized under its two possible `range`
orders yields different bytes; since Go randomizes map iteration order,
re-running the generator is not guaranteed byte-identical output. -/
theorem tagString_order_dependent :
    List.Perm [(("json".data : List Char), ("a".data : List Char)), ("xml".data, "b".data)]
      [("xml".data, "b".data), ("json".data, "a".data)]
    ∧ tagString [("json".data, "a".data), ("xml".data, "b".data)]
      ≠ tagString [("xml".data, "b".data), ("json".data, "a".data)] :=
  ⟨by decide, by decide⟩

/-- C2: for a field whose declared type is not a simple named type
(`Data []byte`), the emitted mirror struct omits the field, yet the
constructor still copies it (`v.Data = m.Data`) — the constructor
references a field absent from the mirror type. -/
theorem constructor_copies_omitted_field :
    fieldNamesOf [⟨"Data", none, none⟩] = ["Data"]
    ∧ (([(⟨"Data", none, none⟩ : FieldDecl)]).filter
        (fun f => f.typeIdent.isSome)).map (fun f => f.name) = []
    ∧ emitMirrorType "T" [⟨"Data", none, none⟩] = "type TJSON struct \x7b\n\x7d\n"
    ∧ emitConstructor "T" [⟨"Data", none, none⟩]
        = "func NewTJSON(m *T) *TJSON \x7b\n\tv := &TJSON\x7b\x7d\n\tv.Data = m.Data\nreturn v\n\x7d\n" :=
  ⟨by decide, by decide, by decide, by decide⟩

theorem emitTypeSpec_not_requested {types : List String} {d : TypeSpecDecl}
    (h : contains types d.name = false) : emitTypeSpec types d = "" := by
  unfold emitTypeSpec
  simp [h]

theorem emitTypeSpec_not_struct {types : List String} {d : TypeSpecDecl}
    (h : d.structFields = none) : emitTypeSpec types d = "" := by
  unfold emitTypeSpec
  rw [h]
  split <;> rfl

/-- C9: omitted or non-struct declarations contribute nothing to the
output — generation over a declaration list equals generation over its
requested-struct sublist — and adding a requested name that matches no
declaration leaves the output unchanged (and reports no error: the
generator is a total function). -/
theorem empty_string_append (s : String) : "" ++ s = s := by
  obtain ⟨d⟩ := s
  rfl

theorem generateBody_skips (types : List String) (decls : List TypeSpecDecl) :
    generateBody types decls
      = generateBody types
          (decls.filter (fun d => contains types d.name && d.structFields.isSome))
    ∧ ∀ name : String, (∀ d ∈ decls, d.name ≠ name) →
        generateBody (name :: types) decls = generateBody types decls := by
  constructor
  · induction decls with
    | nil => rfl
    | cons d rest ih =>
      by_cases hc : (contains types d.name && d.structFields.isSome) = true
      · have hfc : List.filter (fun d => contains types d.name && d.structFields.isSome) (d :: rest)
            = d :: List.filter (fun d => contains types d.name && d.structFields.isSome) rest := by
          simp [List.filter_cons, hc]
        rw [hfc]
        simp only [generateBody]
        rw [ih]
      · have hfc : List.filter (fun d => contains types d.name && d.structFields.isSome) (d :: rest)
            = List.filter (fun d => contains types d.name && d.structFields.isSome) rest := by
          simp [List.filter_cons, hc]
        rw [hfc]
        have hd : emitTypeSpec types d = "" := by
          by_cases h1 : contains types d.name = true
          · have h2 : d.structFields = none := by
              cases hso : d.structFields with
              | none => rfl
              | some fs =>
                exact absurd (by rw [h1, hso]; rfl) hc
            exact emitTypeSpec_not_struct h2
          · exact emitTypeSpec_not_requested (by simpa using h1)
        simp only [generateBody]
        rw [hd, ih]
        exact empty_string_append _
  · intro name
    induction decls with
    | nil => intro h; rfl
    | cons d rest ih =>
      intro h
      have hd : d.name ≠ name := h d (by simp)
      have hrest : ∀ d' ∈ rest, d'.name ≠ name := fun d' hd' => h d' (by simp [hd'])
      have hcont : contains (name :: types) d.name = contains types d.name := by
        rw [contains]
        rw [if_neg (fun he => hd he.symm)]
      simp only [generateBody]
      rw [ih hrest]
      have hemit : emitTypeSpec (name :: types) d = emitTypeSpec types d := by
        unfold emitTypeSpec
        rw [hcont]
      rw [hemit]

/-- Witness for C9: the absent requested name `Ghost` leaves the output
for a one-declaration package unchanged. -/
theorem generateBody_skips_witness :
    (∀ d ∈ [(⟨"User", some [(⟨"ID", some "int64", none⟩ : FieldDecl)]⟩ : TypeSpecDecl)],
        d.name ≠ "Ghost")
    ∧ generateBody ("Ghost" :: ["User"]) [⟨"User", some [⟨"ID", some "int64", none⟩]⟩]
        = generateBody ["User"] [⟨"User", some [⟨"ID", some "int64", none⟩]⟩] :=
  ⟨by decide,
   (generateBody_skips ["User"] [⟨"User", some [⟨"ID", some "int64", none⟩]⟩]).2
     "Ghost" (by decide)⟩

theorem takeWhile_append_eq (p : Char → Bool) :
    ∀ (k t : List Char), (∀ c ∈ k, p c = true) →
      (∀ c, t.head? = some c → p c = false) →
      (k ++ t).takeWhile p = k := by
  intro k
  induction k with
  | nil =>
    intro t _ ht
    cases t with
    | nil => rfl
    | cons c tl => simp [List.takeWhile_cons, ht c rfl]
  | cons c k' ih =>
    intro t hk ht
    have hc := hk c (by simp)
    simp only [List.cons_append, List.takeWhile_cons, hc, if_true]
    rw [ih t (fun x hx => hk x (by simp [hx])) ht]

theorem dropWhile_append_eq (p : Char → Bool) :
    ∀ (k t : List Char), (∀ c ∈ k, p c = true) →
      (∀ c, t.head? = some c → p c = false) →
      (k ++ t).dropWhile p = t := by
  intro k
  induction k with
  | nil =>
    intro t _ ht
    cases t with
    | nil => rfl
    | cons c tl => simp [List.dropWhile_cons, ht c rfl]
  | cons c k' ih =>
    intro t hk ht
    have hc := hk c (by simp)
    simp only [List.cons_append, List.dropWhile_cons, hc, if_true]
    exact ih t (fun x hx => hk x (by simp [hx])) ht

theorem tryTagValue_head_not_colon (t : List Char)
    (ht : ∀ c, t.head? = some c → c ≠ ':') : tryTagValue t = none := by
  cases t with
  | nil => rfl
  | cons c tl =>
    have hc := ht c rfl
    unfold tryTagValue
    split
    · next rest heq =>
      rw [List.cons.injEq] at heq
      exact absurd heq.1 hc
    · next rest heq =>
      rw [List.cons.injEq] at heq
      exact absurd heq.1 hc
    · rfl

theorem parseQuoted_closed (v t : List Char)
    (hvc : ∀ c ∈ v, isTagClassChar c = true) :
    parseQuoted (v ++ '"' :: t) = some (v, t) := by
  unfold parseQuoted
  rw [dropWhile_append_eq isTagClassChar v ('"' :: t) hvc
      (by intro c hc; injection hc with h; rw [← h]; decide)]
  rw [takeWhile_append_eq isTagClassChar v ('"' :: t) hvc
      (by intro c hc; injection hc with h; rw [← h]; decide)]
  rfl

theorem tagRegexMatches_nil : tagRegexMatches [] = [] := by
  rw [tagRegexMatches]

theorem tagRegexMatches_token (k v t : List Char)
    (hk : k ≠ []) (hkc : ∀ c ∈ k, isTagClassChar c = true)
    (hvc : ∀ c ∈ v, isTagClassChar c = true)
    (ht : ∀ c, t.head? = some c → c = ' ') :
    tagRegexMatches (tagToken k v ++ t) = (k, v) :: tagRegexMatches t := by
  rcases k with _ | ⟨c, k'⟩
  · exact absurd rfl hk
  have hc := hkc c (by simp)
  have hk'c : ∀ x ∈ k', isTagClassChar x = true := fun x hx => hkc x (by simp [hx])
  have htf : ∀ x, t.head? = some x → isTagClassChar x = false := by
    intro x hx
    rw [ht x hx]
    decide
  by_cases hv : v = []
  · subst hv
    have htok : tagToken (c :: k') [] ++ t = c :: (k' ++ t) := by
      simp [tagToken]
    rw [htok, tagRegexMatches]
    rw [if_pos hc]
    rw [dropWhile_append_eq isTagClassChar k' t hk'c htf]
    rw [takeWhile_append_eq isTagClassChar k' t hk'c htf]
    have htvn : tryTagValue t = none :=
      tryTagValue_head_not_colon t (by intro x hx; rw [ht x hx]; decide)
    split
    · next v' rest2 heq =>
      rw [htvn] at heq
      exact absurd heq (by simp)
    · next heq => rfl
  · have htok : tagToken (c :: k') v ++ t
        = c :: (k' ++ (':' :: '"' :: (v ++ '"' :: t))) := by
      simp [tagToken, hv, List.append_assoc]
    rw [htok, tagRegexMatches]
    rw [if_pos hc]
    have hqhead : ∀ x : Char, (':' :: '"' :: (v ++ '"' :: t)).head? = some x →
        isTagClassChar x = false := by
      intro x hx
      injection hx with h
      rw [← h]
      decide
    rw [dropWhile_append_eq isTagClassChar k' (':' :: '"' :: (v ++ '"' :: t)) hk'c hqhead]
    rw [takeWhile_append_eq isTagClassChar k' (':' :: '"' :: (v ++ '"' :: t)) hk'c hqhead]
    have htv : tryTagValue (':' :: '"' :: (v ++ '"' :: t)) = some (v, t) := by
      show parseQuoted (v ++ '"' :: t) = some (v, t)
      exact parseQuoted_closed v t hvc
    split
    · next v' rest2 heq =>
      rw [htv] at heq
      injection heq with heq'
      rw [Prod.mk.injEq] at heq'
      obtain ⟨h1, h2⟩ := heq'
      subst h1
      subst h2
      rfl
    · next heq =>
      rw [htv] at heq
      exact absurd heq (by simp)

theorem tagRegexMatches_space (z : List Char) :
    tagRegexMatches (' ' :: z) = tagRegexMatches z := by
  rw [tagRegexMatches]
  rw [if_neg (by decide)]

theorem flatten_head_space (rest : List (List Char × List Char)) :
    ∀ c, ((rest.map (fun kv => ' ' :: tagToken kv.1 kv.2)).flatten).head? = some c →
      c = ' ' := by
  cases rest with
  | nil => intro c h; exact absurd h (by simp)
  | cons kv2 r2 =>
    intro c h
    simp only [List.map_cons, List.flatten_cons, List.cons_append, List.head?_cons] at h
    injection h with h'
    exact h'.symm

theorem tagRegexMatches_flat :
    ∀ entries : List (List Char × List Char),
      (∀ kv ∈ entries, kv.1 ≠ [] ∧ (∀ c ∈ kv.1, isTagClassChar c = true)
        ∧ (∀ c ∈ kv.2, isTagClassChar c = true)) →
      tagRegexMatches ((entries.map (fun kv => ' ' :: tagToken kv.1 kv.2)).flatten)
        = entries := by
  intro entries
  induction entries with
  | nil => intro _; exact tagRegexMatches_nil
  | cons kv rest ih =>
    intro h
    obtain ⟨hk, hkc, hvc⟩ := h kv (by simp)
    have hrest : ∀ kv' ∈ rest, kv'.1 ≠ [] ∧ (∀ c ∈ kv'.1, isTagClassChar c = true)
        ∧ (∀ c ∈ kv'.2, isTagClassChar c = true) :=
      fun kv' hkv' => h kv' (List.mem_cons_of_mem _ hkv')
    simp only [List.map_cons, List.flatten_cons, List.cons_append]
    rw [tagRegexMatches_space]
    rw [tagRegexMatches_token kv.1 kv.2 _ hk hkc hvc (flatten_head_space rest)]
    rw [ih hrest]

theorem tagString_eq_flatten (tags : List (List Char × List Char)) :
    tagString tags
      = trimLeadSpace ((tags.map (fun kv => ' ' :: tagToken kv.1 kv.2)).flatten) := by
  unfold tagString
  have key : ∀ (l : List (List Char × List Char)) (acc : List Char),
      l.foldl (fun out kv => out ++ ' ' :: tagToken kv.1 kv.2) acc
        = acc ++ (l.map (fun kv => ' ' :: tagToken kv.1 kv.2)).flatten := by
    intro l
    induction l with
    | nil => intro acc; simp
    | cons kv r ih =>
      intro acc
      simp only [List.foldl_cons, List.map_cons, List.flatten_cons]
      rw [ih]
      simp [List.append_assoc]
  rw [key tags []]
  simp

theorem mapInsert_append_absent (k v : List Char) :
    ∀ acc, aLookup k acc = none → mapInsert acc k v = acc ++ [(k, v)] := by
  intro acc
  induction acc with
  | nil => intro _; rfl
  | cons kv rest ih =>
    obtain ⟨k', v'⟩ := kv
    intro h
    simp only [aLookup] at h
    by_cases hk : k' = k
    · rw [if_pos hk] at h
      exact absurd h (by simp)
    · rw [if_neg hk] at h
      simp only [mapInsert]
      rw [if_neg hk, ih h]
      simp

theorem aLookup_append_none (k : List Char) :
    ∀ (l1 l2 : List (List Char × List Char)), aLookup k l1 = none →
      aLookup k (l1 ++ l2) = aLookup k l2 := by
  intro l1 l2
  induction l1 with
  | nil => intro _; rfl
  | cons kv rest ih =>
    obtain ⟨k', v'⟩ := kv
    intro h
    simp only [aLookup] at h
    simp only [List.cons_append, aLookup]
    by_cases hk : k' = k
    · rw [if_pos hk] at h
      exact absurd h (by simp)
    · rw [if_neg hk] at h
      rw [if_neg hk]
      exact ih h

theorem foldl_mapInsert_eq :
    ∀ (entries acc : List (List Char × List Char)),
      (∀ kv ∈ entries, aLookup kv.1 acc = none) → (entries.map Prod.fst).Nodup →
      entries.foldl (fun m kv => mapInsert m kv.1 kv.2) acc = acc ++ entries := by
  intro entries
  induction entries with
  | nil => intro acc _ _; simp
  | cons kv rest ih =>
    intro acc habs hnod
    obtain ⟨k, v⟩ := kv
    simp only [List.foldl_cons]
    have hknone : aLookup k acc = none := habs (k, v) (by simp)
    rw [mapInsert_append_absent k v acc hknone]
    simp only [List.map_cons, List.nodup_cons] at hnod
    have habs' : ∀ kv' ∈ rest, aLookup kv'.1 (acc ++ [(k, v)]) = none := by
      intro kv' hkv'
      rw [aLookup_append_none kv'.1 acc [(k, v)] (habs kv' (by simp [hkv']))]
      have hne : k ≠ kv'.1 := by
        intro heq
        exact hnod.1 (heq ▸ List.mem_map_of_mem Prod.fst hkv')
      simp [aLookup, hne]
    rw [ih (acc ++ [(k, v)]) habs' hnod.2]
    simp

/-- C5: round trip — serializing an ordered entry sequence over the
supported character class (non-empty keys) and re-parsing it recovers
exactly the same sequence in the same order at the regex-match level,
and, for key-distinct sequences (the only ones a Go map can enumerate),
also through `tagParser`'s map construction. -/
theorem tagParser_tagString_roundtrip (entries : List (List Char × List Char))
    (hwf : ∀ kv ∈ entries, kv.1 ≠ [] ∧ (∀ c ∈ kv.1, isTagClassChar c = true)
      ∧ (∀ c ∈ kv.2, isTagClassChar c = true)) :
    tagRegexMatches (tagString entries) = entries
    ∧ ((entries.map Prod.fst).Nodup → tagParser (tagString entries) = entries) := by
  have hmatch : tagRegexMatches (tagString entries) = entries := by
    rw [tagString_eq_flatten]
    cases entries with
    | nil => exact tagRegexMatches_nil
    | cons kv rest =>
      obtain ⟨hk, hkc, hvc⟩ := hwf kv (by simp)
      have hrest : ∀ kv' ∈ rest, kv'.1 ≠ [] ∧ (∀ c ∈ kv'.1, isTagClassChar c = true)
          ∧ (∀ c ∈ kv'.2, isTagClassChar c = true) :=
        fun kv' hkv' => hwf kv' (List.mem_cons_of_mem _ hkv')
      simp only [List.map_cons, List.flatten_cons, List.cons_append]
      rw [show ∀ z : List Char, trimLeadSpace (' ' :: z) = z from fun z => rfl]
      rw [tagRegexMatches_token kv.1 kv.2 _ hk hkc hvc (flatten_head_space rest)]
      rw [tagRegexMatches_flat rest hrest]
  refine ⟨hmatch, ?_⟩
  intro hnodup
  unfold tagParser
  rw [hmatch]
  rw [foldl_mapInsert_eq entries [] (fun kv _ => rfl) hnodup]
  simp

/-- Witness for C5 at a concrete two-entry sequence using commas and
alphanumerics. -/
theorem tagParser_tagString_roundtrip_witness :
    (∀ kv ∈ [(("json".data : List Char), (",omitempty".data : List Char)),
        ("xml".data, "b".data)],
      kv.1 ≠ [] ∧ (∀ c ∈ kv.1, isTagClassChar c = true)
        ∧ (∀ c ∈ kv.2, isTagClassChar c = true))
    ∧ tagRegexMatches (tagString [("json".data, ",omitempty".data), ("xml".data, "b".data)])
        = [("json".data, ",omitempty".data), ("xml".data, "b".data)]
    ∧ ([(("json".data : List Char), (",omitempty".data : List Char)),
        ("xml".data, "b".data)].map Prod.fst).Nodup
    ∧ tagParser (tagString [("json".data, ",omitempty".data), ("xml".data, "b".data)])
        = [("json".data, ",omitempty".data), ("xml".data, "b".data)] :=
  ⟨by decide,
   (tagParser_tagString_roundtrip _ (by decide)).1,
   by decide,
   (tagParser_tagString_roundtrip _ (by decide)).2 (by decide)⟩

end JsonSnakeCase

